import Mathlib

/-!
Verification of the real-time audio pipeline of the gemini-live-interpreter
repository.  The embedded code lives in src/services/liveClient.ts, which
contains two revisions of the LiveClient class: the first revision (lines
1-395, with the inline decoder worker and the active-flag safety checks in
connect) and the second revision (lines 395-715, with the 50 ms gap reset and
the interruption reset in the playback scheduler).  Each definition below
names the revision and the lines it embeds.

Modelling conventions: machine floats of the source are mapped to exact
rationals; the device clock (AudioContext.currentTime) is a rational passed
in as the value `now`; byte buffers are lists of naturals.
-/

namespace LiveClient

/-!
## Wire Decoder

Inline decoder worker, first revision, liveClient.ts lines 41-63.  The worker
receives the base64 payload, obtains the binary string, stores each char code
into a Uint8Array (assignment to a Uint8Array entry reduces the value mod
256), reinterprets the byte buffer as an Int16Array (little-endian signed
16-bit words; the Int16Array constructor throws on an odd-length buffer) and
divides each word by 32768.0.  The base64 step (atob) is a browser builtin,
not repository code; the embedding therefore starts from the char-code list
the binary string yields.
-/

def toByte (c : ℕ) : ℕ := c % 256

def toInt16 (lo hi : ℕ) : ℤ :=
  let v : ℕ := toByte lo + 256 * toByte hi
  if v < 32768 then (v : ℤ) else (v : ℤ) - 65536

def pcm16ToFloat : List ℕ → List ℚ
  | lo :: hi :: rest => ((toInt16 lo hi : ℚ) / 32768) :: pcm16ToFloat rest
  | _ => []

def decoderWorker (cs : List ℕ) : Option (List ℚ) :=
  if cs.length % 2 = 0 then some (pcm16ToFloat cs) else none

def bytesOfWords : List (Fin 256 × Fin 256) → List ℕ
  | [] => []
  | (lo, hi) :: rest => lo.val :: hi.val :: bytesOfWords rest

/-!
## Playback Scheduler

Second revision: queueAudio, liveClient.ts lines 622-638, and handleMessage,
lines 599-620.  First revision: queueAudio with Math.max, lines 294-316
(embedded as queueAudioMax).  The scheduler state carries the mutable
nextStartTime field together with the list of (start, duration) pairs of the
buffer sources started so far, in order.
-/

structure SchedState where
  nextStartTime : ℚ
  scheduled : List (ℚ × ℚ)
deriving DecidableEq

def initSched : SchedState := ⟨0, []⟩

def outputRate : ℚ := 24000

def duration (samples : List ℚ) : ℚ := (samples.length : ℚ) / outputRate

def epsilon : ℚ := 1 / 20

def queueStart (now : ℚ) (s : SchedState) : ℚ :=
  if s.nextStartTime < now then now + epsilon else s.nextStartTime

def queueAudio (now : ℚ) (samples : List ℚ) (s : SchedState) : SchedState :=
  ⟨queueStart now s + duration samples,
   s.scheduled ++ [(queueStart now s, duration samples)]⟩

def queueAudioMax (now : ℚ) (samples : List ℚ) (s : SchedState) : SchedState :=
  ⟨max s.nextStartTime now + duration samples,
   s.scheduled ++ [(max s.nextStartTime now, duration samples)]⟩

/-- Modelled from the spec: base64ToUint8Array and decodeAudioData live in
src/utils/audioUtils.ts, which is not among the provided sources.  Section 4.3
of the spec fixes the contract: the inbound payload is base64-encoded 16-bit
little-endian PCM and a malformed payload fails to decode.  Success is
modelled as requiring genuine byte values and an even byte count; the
word-to-float map is the same one the in-repository decoder worker uses. -/
def decodeAudioData (p : List ℕ) : Option (List ℚ) :=
  if p.length % 2 = 0 ∧ ∀ b ∈ p, b < 256 then some (pcm16ToFloat p) else none

inductive ServerMessage where
  | interrupted
  | audio (payload : List ℕ)
  | other

/-- Second revision handleMessage, liveClient.ts lines 599-620: an
interruption resets nextStartTime to the device time and returns; an audio
part is decoded and queued, a decode failure is reported (console.error) and
leaves the scheduler untouched. -/
def handleMessage (now : ℚ) (msg : ServerMessage) (s : SchedState) : SchedState :=
  match msg with
  | .interrupted => ⟨now, s.scheduled⟩
  | .audio p =>
      match decodeAudioData p with
      | some samples => queueAudio now samples s
      | none => s
  | .other => s

def runQueue (s : SchedState) : List (ℚ × List ℚ) → SchedState
  | [] => s
  | (now, samples) :: rest => runQueue (queueAudio now samples s) rest

def starts (s : SchedState) : List ℚ := s.scheduled.map Prod.fst

def durationsOf (l : List (ℚ × List ℚ)) : List ℚ := l.map fun p => duration p.2

def startsFrom (t : ℚ) : List ℚ → List ℚ
  | [] => []
  | d :: ds => t :: startsFrom (t + d) ds

/-- Arrival discipline for a simulated run: the list pairs each buffer with
the device time at which it reaches queueAudio.  The first buffer must arrive
no later than the given bound, and each later buffer must arrive within the
preceding buffer duration of the preceding arrival. -/
def timelyArrivals (bound : ℚ) : List (ℚ × List ℚ) → Prop
  | [] => True
  | (now, samples) :: rest => now ≤ bound ∧ timelyArrivals (now + duration samples) rest

/-!
## Capture Chunker

Inline input worklet (RecorderProcessor), first revision lines 12-37, second
revision lines 406-431 (the two revisions are identical here).  A fixed
Float32Array of 2048 entries is allocated once in the constructor; process
writes each incoming sample at the current index, and when the index reaches
the buffer size the whole buffer is posted (postMessage copies it) and the
index resets to 0.  There is no flush handler: stopping simply stops calling
process, so a half-filled accumulator is dropped.
-/

def frameSize : ℕ := 2048

structure RecorderState where
  buffer : List ℚ
  index : ℕ
  emitted : List (List ℚ)
deriving DecidableEq

def initRecorder : RecorderState := ⟨List.replicate frameSize 0, 0, []⟩

def processSample (s : RecorderState) (x : ℚ) : RecorderState :=
  let buffer := s.buffer.set s.index x
  let index := s.index + 1
  if frameSize ≤ index then ⟨buffer, 0, s.emitted ++ [buffer]⟩
  else ⟨buffer, index, s.emitted⟩

def processBatch (s : RecorderState) (batch : List ℚ) : RecorderState :=
  batch.foldl processSample s

def processStream (s : RecorderState) (batches : List (List ℚ)) : RecorderState :=
  batches.foldl processBatch s

/-- The worklet has no flush handler: at stop, exactly the frames already
posted have been emitted and the half-filled accumulator is dropped. -/
def flushOnStop (s : RecorderState) : List (List ℚ) := s.emitted

def concatAll {α : Type} : List (List α) → List α
  | [] => []
  | l :: ls => l ++ concatAll ls

/-- Invariant maintained by the recorder: the accumulator keeps its fixed
allocation size, the write index stays inside it, and every emitted frame is
full. -/
def RecInv (s : RecorderState) : Prop :=
  s.buffer.length = frameSize ∧ s.index < frameSize ∧ ∀ f ∈ s.emitted, f.length = frameSize

/-- The samples the recorder has consumed so far: the emitted frames followed
by the partial content of the accumulator. -/
def consumed (s : RecorderState) : List ℚ := concatAll s.emitted ++ s.buffer.take s.index

/-!
## Wire Encoder
-/

/-- Modelled from the spec: the Wire Encoder (pcmToGeminiBlob) lives in
src/utils/audioUtils.ts, which is not among the provided sources.  Section 4.2
of the spec fixes the per-sample map: sample16 = round(clamp(sample, -1.0,
1.0) * 32767), clamping instead of throwing on out-of-range input. -/
def clampSample (x : ℚ) : ℚ := max (-1) (min 1 x)

/-- Modelled from the spec: the quantization step of the Wire Encoder, see
clampSample. -/
def encodeSample (x : ℚ) : ℤ := round (clampSample x * 32767)

/-- Per-word map of the in-repository decoder worker (value16 / 32768.0),
applied to one already-assembled signed word. -/
def decodeSample (v : ℤ) : ℚ := (v : ℚ) / 32768

def roundTripFrame (frame : List ℚ) : List ℚ :=
  frame.map fun x => decodeSample (encodeSample x)

/-!
## Session lifecycle: connect with interleaved stop requests

First revision connect, liveClient.ts lines 159-250, and stop, lines 353-394.
The model replays connect as its synchronous segments with a possible stop
request interposed at each await point: stopA during audioWorklet.addModule
(the code checks the active flag right after this await, line 181), stopB
during outputContext.setSinkId (no check follows this await), stopC during
navigator.mediaDevices.getUserMedia (the code checks the flag right after,
line 223, and calls stop there if it was cleared).  gumFail replays the catch
branch of getUserMedia (stop and rethrow).  For this model stop is treated as
one atomic step, which is the synchronous null-check-and-release sweep of
lines 353-394.  Counters record how often each resource is acquired and
released, and how many acquisitions happen after some stop already ran.
-/

structure Client where
  active : Bool
  inputCtx : Bool
  outputCtx : Bool
  stream : Bool
  session : Bool
  acqInputCtx : ℕ
  acqOutputCtx : ℕ
  acqStream : ℕ
  acqSession : ℕ
  relInputCtx : ℕ
  relOutputCtx : ℕ
  relStream : ℕ
  relSession : ℕ
  stopEver : Bool
  acqAfterStop : ℕ
deriving DecidableEq

def initClient : Client :=
  ⟨false, false, false, false, false, 0, 0, 0, 0, 0, 0, 0, 0, false, 0⟩

def afterStopMark (c : Client) (n : ℕ) : ℕ :=
  c.acqAfterStop + (if c.stopEver then n else 0)

def acquireCtxs (c : Client) : Client :=
  { c with inputCtx := true, outputCtx := true,
           acqInputCtx := c.acqInputCtx + 1, acqOutputCtx := c.acqOutputCtx + 1,
           acqAfterStop := afterStopMark c 2 }

def acquireStream (c : Client) : Client :=
  { c with stream := true, acqStream := c.acqStream + 1,
           acqAfterStop := afterStopMark c 1 }

def acquireSession (c : Client) : Client :=
  { c with session := true, acqSession := c.acqSession + 1,
           acqAfterStop := afterStopMark c 1 }

def stop (c : Client) : Client :=
  { c with active := false, stopEver := true,
           stream := false,
           inputCtx := false,
           outputCtx := false,
           session := false,
           relStream := c.relStream + (if c.stream then 1 else 0),
           relInputCtx := c.relInputCtx + (if c.inputCtx then 1 else 0),
           relOutputCtx := c.relOutputCtx + (if c.outputCtx then 1 else 0),
           relSession := c.relSession + (if c.session then 1 else 0) }

def connect (stopA stopB stopC gumFail : Bool) (c0 : Client) : Client :=
  let c1 := acquireCtxs { c0 with active := true }
  let c2 := if stopA then stop c1 else c1
  if !c2.active || !c2.inputCtx || !c2.outputCtx then c2
  else
    let c3 := if stopB then stop c2 else c2
    let c4 := if stopC then stop c3 else c3
    if gumFail then stop c4
    else
      let c5 := acquireStream c4
      if !c5.active || !c5.inputCtx then stop c5
      else acquireSession c5

/-!
## Reentrant stop: the suspension inside stop itself

stop (both revisions, lines 353-394 and 673-715) releases the worklet node,
the source node and the capture stream synchronously, then reaches
`await this.inputContext.close()`.  The field this.inputContext is nulled
only AFTER that await resumes.  A second stop call issued before the first
resumes therefore passes the `if (this.inputContext)` guard again and calls
close() a second time; per the Web Audio specification close() on an
AudioContext whose state flag is already closed (the flag is set
synchronously by the first call) returns a rejected promise, so the second
stop call throws.  The model below replays the synchronous prefix of stop up
to and including the close() call on the input context.
-/

structure ClientR where
  workletNode : Bool
  sourceNode : Bool
  stream : Bool
  inputCtxRef : Bool
  inputClosed : Bool
  inputCloseCalls : ℕ
  closeErrors : ℕ
  trackStops : ℕ
deriving DecidableEq

/-- A fully connected client: nodes, stream and input context all live. -/
def connectedClientR : ClientR := ⟨true, true, true, true, false, 0, 0, 0⟩

/-- The synchronous prefix of stop: null the nodes, stop the tracks and null
the stream, then, if this.inputContext is non-null, call close() on it (a
call on an already-closed context records an InvalidStateError rejection).
The suspension of the await follows this prefix, and this.inputContext is
nulled only after the suspension. -/
def stopPrefix (c : ClientR) : ClientR :=
  let c1 : ClientR :=
    { c with workletNode := false, sourceNode := false, stream := false,
             trackStops := c.trackStops + (if c.stream then 1 else 0) }
  if c1.inputCtxRef then
    if c1.inputClosed then
      { c1 with inputCloseCalls := c1.inputCloseCalls + 1,
                closeErrors := c1.closeErrors + 1 }
    else
      { c1 with inputCloseCalls := c1.inputCloseCalls + 1, inputClosed := true }
  else c1

/-- Two stop calls in the same tick: the second begins before the first has
resumed from `await this.inputContext.close()`. -/
def doubleStop (c : ClientR) : ClientR := stopPrefix (stopPrefix c)

/-!
## Theorems
-/

theorem bytesOfWords_length (ws : List (Fin 256 × Fin 256)) :
    (bytesOfWords ws).length = 2 * ws.length := by
  induction ws with
  | nil => simp [bytesOfWords]
  | cons w rest ih =>
      obtain ⟨lo, hi⟩ := w
      simp [bytesOfWords, ih]
      omega

theorem pcm16ToFloat_bytesOfWords (ws : List (Fin 256 × Fin 256)) :
    pcm16ToFloat (bytesOfWords ws)
      = ws.map fun w => ((toInt16 w.1.val w.2.val : ℚ) / 32768) := by
  induction ws with
  | nil => simp [bytesOfWords, pcm16ToFloat]
  | cons w rest ih =>
      obtain ⟨lo, hi⟩ := w
      simp [bytesOfWords, pcm16ToFloat, ih]

/-- C5: for every inbound payload consisting of 16-bit little-endian PCM
words, the decoder worker (liveClient.ts lines 41-63) reconstructs exactly
the per-word values toInt16 / 32768, sample for sample and in order, and the
number of output samples equals the number of 16-bit input words. -/
theorem c5_decoder_pointwise (ws : List (Fin 256 × Fin 256)) :
    decoderWorker (bytesOfWords ws)
      = some (ws.map fun w => ((toInt16 w.1.val w.2.val : ℚ) / 32768)) ∧
    (pcm16ToFloat (bytesOfWords ws)).length = ws.length := by
  constructor
  · unfold decoderWorker
    rw [if_pos (by rw [bytesOfWords_length]; omega)]
    rw [pcm16ToFloat_bytesOfWords]
  · rw [pcm16ToFloat_bytesOfWords, List.length_map]

theorem toInt16_bounds (lo hi : ℕ) :
    -32768 ≤ toInt16 lo hi ∧ toInt16 lo hi ≤ 32767 := by
  have h1 : lo % 256 < 256 := Nat.mod_lt _ (by norm_num)
  have h2 : hi % 256 < 256 := Nat.mod_lt _ (by norm_num)
  simp only [toInt16, toByte]
  by_cases hv : lo % 256 + 256 * (hi % 256) < 32768
  · simp only [if_pos hv]
    constructor <;> push_cast <;> omega
  · simp only [if_neg hv]
    push_neg at hv
    constructor <;> push_cast <;> omega

theorem pcm16ToFloat_mem_bounds :
    ∀ (cs : List ℕ) (x : ℚ), x ∈ pcm16ToFloat cs → -1 ≤ x ∧ x ≤ 32767 / 32768
  | [], x, hx => by simp [pcm16ToFloat] at hx
  | [_], x, hx => by simp [pcm16ToFloat] at hx
  | lo :: hi :: rest, x, hx => by
      rw [pcm16ToFloat] at hx
      rcases List.mem_cons.mp hx with h | h
      · subst h
        obtain ⟨hb1, hb2⟩ := toInt16_bounds lo hi
        have hc1 : ((-32768 : ℤ) : ℚ) ≤ ((toInt16 lo hi : ℤ) : ℚ) := by exact_mod_cast hb1
        have hc2 : ((toInt16 lo hi : ℤ) : ℚ) ≤ ((32767 : ℤ) : ℚ) := by exact_mod_cast hb2
        constructor
        · rw [le_div_iff₀ (by norm_num : (0 : ℚ) < 32768)]
          push_cast at hc1 ⊢
          linarith
        · rw [div_le_div_iff₀ (by norm_num : (0 : ℚ) < 32768) (by norm_num : (0 : ℚ) < 32768)]
          push_cast at hc2 ⊢
          linarith
      · exact pcm16ToFloat_mem_bounds rest x h

/-- C10: whatever the byte content of the inbound payload, every sample the
decoder worker produces lies in [-32768/32768, 32767/32768], hence in
[-1, 1], because each signed 16-bit word is divided by 32768.0. -/
theorem c10_decoded_range (cs : List ℕ) (out : List ℚ) (x : ℚ)
    (h : decoderWorker cs = some out) (hx : x ∈ out) :
    -1 ≤ x ∧ x ≤ 32767 / 32768 := by
  unfold decoderWorker at h
  split at h
  · injection h with h
    subst h
    exact pcm16ToFloat_mem_bounds cs x hx
  · exact absurd h (by simp)

theorem c10_decoded_range_witness :
    -1 ≤ (-1 : ℚ) ∧ (-1 : ℚ) ≤ 32767 / 32768 := by
  have hmem : (-1 : ℚ) ∈ pcm16ToFloat [0, 128] := by
    norm_num [pcm16ToFloat, toInt16, toByte]
  exact c10_decoded_range [0, 128] (pcm16ToFloat [0, 128]) (-1)
    (by norm_num [decoderWorker]) hmem

theorem epsilon_pos : (0 : ℚ) < epsilon := by norm_num [epsilon]

theorem duration_nonneg (samples : List ℚ) : 0 ≤ duration samples := by
  unfold duration outputRate
  positivity

theorem le_queueStart (now : ℚ) (s : SchedState) :
    s.nextStartTime ≤ queueStart now s := by
  unfold queueStart
  split
  · next h => linarith [epsilon_pos]
  · exact le_refl _

theorem now_le_queueStart (now : ℚ) (s : SchedState) : now ≤ queueStart now s := by
  unfold queueStart
  split
  · linarith [epsilon_pos]
  · next h => exact le_of_not_lt h

theorem timelyArrivals_mono (l : List (ℚ × List ℚ)) (b bigger : ℚ)
    (hb : b ≤ bigger) (h : timelyArrivals b l) : timelyArrivals bigger l := by
  cases l with
  | nil => trivial
  | cons p rest =>
      obtain ⟨now, samples⟩ := p
      rw [timelyArrivals] at h ⊢
      exact ⟨le_trans h.1 hb, h.2⟩

theorem runQueue_timely (l : List (ℚ × List ℚ)) :
    ∀ s : SchedState, timelyArrivals s.nextStartTime l →
      starts (runQueue s l)
        = s.scheduled.map Prod.fst ++ startsFrom s.nextStartTime (durationsOf l) := by
  induction l with
  | nil => intro s _; simp [runQueue, starts, startsFrom, durationsOf]
  | cons p rest ih =>
      intro s h
      obtain ⟨now, samples⟩ := p
      rw [timelyArrivals] at h
      obtain ⟨h1, h2⟩ := h
      have hq : queueStart now s = s.nextStartTime := by
        unfold queueStart
        rw [if_neg (not_lt.mpr h1)]
      have h2ok : timelyArrivals (queueAudio now samples s).nextStartTime rest := by
        refine timelyArrivals_mono rest (now + duration samples) _ ?_ h2
        simp only [queueAudio, hq]
        linarith
      rw [runQueue, ih (queueAudio now samples s) h2ok]
      simp [queueAudio, hq, starts, startsFrom, durationsOf]

/-- C1 as stated is refuted here: two buffers, the first of one sample
arriving at device time 0, the second of five samples arriving at device time
4/24000.  Each buffer arrives with delay less than its OWN duration (0 <
1/24000 and 4/24000 - 0 < 5/24000), yet the scheduled start times are not the
cumulative sums of prior durations: the second buffer finds nextStartTime =
1/24000 < now = 4/24000, so queueAudio (second revision, lines 622-638)
resets the timeline to now + 0.05 instead of starting the buffer at the
cumulative sum 1/24000. -/
theorem c1_counterexample :
    ((0 : ℚ) - 0 < duration [0]) ∧
    ((4 / 24000 : ℚ) - 0 < duration [0, 0, 0, 0, 0]) ∧
    starts (runQueue initSched [((0 : ℚ), [0]), ((4 / 24000 : ℚ), [0, 0, 0, 0, 0])])
      ≠ startsFrom 0 (durationsOf [((0 : ℚ), [0]), ((4 / 24000 : ℚ), [0, 0, 0, 0, 0])]) := by
  refine ⟨by norm_num [duration, outputRate], by norm_num [duration, outputRate], ?_⟩
  norm_num [starts, runQueue, queueAudio, queueStart, initSched, startsFrom,
    durationsOf, duration, outputRate, epsilon]

/-- C1 (amended): for every decoded buffer handed to queueAudio (second
revision, liveClient.ts lines 622-638): if nextStartTime is less than the
device time, nextStartTime is reset to the device time plus the fixed 50 ms
lookahead before scheduling, otherwise it is left unchanged; the buffer is
scheduled to start at nextStartTime and nextStartTime is then advanced by the
buffer duration.  No buffer is ever scheduled to start before the device
time.  The gapless consequence holds with the arrival discipline corrected to
the delay that makes the pipeline keep up: starting from the initial timeline
0, the first buffer arrives at device time at most 0 and every later buffer
arrives within the PRECEDING buffer duration of the preceding arrival; then
the scheduled start times are exactly the cumulative sums of the prior
durations. -/
theorem c1_scheduler (now : ℚ) (samples : List ℚ) (s : SchedState)
    (l : List (ℚ × List ℚ)) :
    (s.nextStartTime < now → queueStart now s = now + epsilon) ∧
    (now ≤ s.nextStartTime → queueStart now s = s.nextStartTime) ∧
    (queueAudio now samples s).nextStartTime = queueStart now s + duration samples ∧
    (queueAudio now samples s).scheduled
      = s.scheduled ++ [(queueStart now s, duration samples)] ∧
    now ≤ queueStart now s ∧
    (timelyArrivals 0 l → starts (runQueue initSched l) = startsFrom 0 (durationsOf l)) := by
  refine ⟨?_, ?_, rfl, rfl, now_le_queueStart now s, ?_⟩
  · intro h
    unfold queueStart
    rw [if_pos h]
  · intro h
    unfold queueStart
    rw [if_neg (not_lt.mpr h)]
  · intro h
    have hrun := runQueue_timely l initSched h
    simpa [initSched] using hrun

theorem c1_scheduler_witness :
    queueStart 2 ⟨1, []⟩ = 2 + epsilon ∧
    queueStart 0 ⟨1, []⟩ = 1 ∧
    starts (runQueue initSched [((0 : ℚ), [0]), ((1 / 24000 : ℚ), [0, 0, 0])])
      = startsFrom 0 (durationsOf [((0 : ℚ), [0]), ((1 / 24000 : ℚ), [0, 0, 0])]) := by
  refine ⟨(c1_scheduler 2 [] ⟨1, []⟩ []).1 (by norm_num),
          (c1_scheduler 0 [] ⟨1, []⟩ []).2.1 (by norm_num),
          (c1_scheduler 0 [] initSched _).2.2.2.2.2 ?_⟩
  norm_num [timelyArrivals, duration, outputRate]

/-- C2: on an interruption message (second revision handleMessage, lines
599-620) the scheduler resets nextStartTime to the device time and touches
nothing else: the list of already-scheduled buffers is left as it is (no
recall, no stop), and a buffer queued right afterwards at that same device
time is scheduled to start at that time, i.e. immediately. -/
theorem c2_interruption (now : ℚ) (s : SchedState) :
    (handleMessage now .interrupted s).nextStartTime = now ∧
    (handleMessage now .interrupted s).scheduled = s.scheduled ∧
    queueStart now (handleMessage now .interrupted s) = now := by
  refine ⟨rfl, rfl, ?_⟩
  simp [handleMessage, queueStart]

/-- C4: a malformed inbound audio payload is dropped as a recoverable
per-chunk event (second revision handleMessage, lines 610-618: the decode
error is caught and reported, the scheduler state including nextStartTime is
left unchanged) and any subsequent payload is handled exactly as if the
malformed one had never arrived. -/
theorem c4_malformed (now now2 : ℚ) (s : SchedState) (p q : List ℕ)
    (hp : decodeAudioData p = none) :
    handleMessage now (.audio p) s = s ∧
    handleMessage now2 (.audio q) (handleMessage now (.audio p) s)
      = handleMessage now2 (.audio q) s := by
  have h1 : handleMessage now (.audio p) s = s := by
    simp [handleMessage, hp]
  exact ⟨h1, by rw [h1]⟩

theorem c4_malformed_witness :
    handleMessage 0 (.audio [1]) initSched = initSched ∧
    handleMessage 1 (.audio [0, 0]) (handleMessage 0 (.audio [1]) initSched)
      = handleMessage 1 (.audio [0, 0]) initSched :=
  c4_malformed 0 1 initSched [1] [0, 0] (by norm_num [decodeAudioData])

theorem queueAudio_mono (now : ℚ) (samples : List ℚ) (s : SchedState) :
    s.nextStartTime ≤ (queueAudio now samples s).nextStartTime := by
  have h1 := le_queueStart now s
  have h2 := duration_nonneg samples
  show s.nextStartTime ≤ queueStart now s + duration samples
  linarith

theorem runQueue_mono (l : List (ℚ × List ℚ)) :
    ∀ s : SchedState, s.nextStartTime ≤ (runQueue s l).nextStartTime := by
  induction l with
  | nil => intro s; exact le_refl _
  | cons p rest ih =>
      intro s
      obtain ⟨now, samples⟩ := p
      rw [runQueue]
      exact le_trans (queueAudio_mono now samples s) (ih _)

/-- C7: nextStartTime never decreases at a buffer-scheduling step — in the
second revision queueAudio (even through its gap reset, which moves the
timeline forward), in the first revision queueAudio (Math.max form, lines
294-316), across any sequence of queueAudio calls, and at a handleMessage
step carrying an audio payload.  The only operation that can move it
backwards is the explicit interruption reset, which the claim exempts. -/
theorem c7_monotone (now : ℚ) (samples : List ℚ) (s : SchedState)
    (l : List (ℚ × List ℚ)) (p : List ℕ) :
    s.nextStartTime ≤ (queueAudio now samples s).nextStartTime ∧
    s.nextStartTime ≤ (queueAudioMax now samples s).nextStartTime ∧
    s.nextStartTime ≤ (runQueue s l).nextStartTime ∧
    s.nextStartTime ≤ (handleMessage now (.audio p) s).nextStartTime := by
  refine ⟨queueAudio_mono now samples s, ?_, runQueue_mono l s, ?_⟩
  · have h2 := duration_nonneg samples
    show s.nextStartTime ≤ max s.nextStartTime now + duration samples
    have := le_max_left s.nextStartTime now
    linarith
  · cases hd : decodeAudioData p with
    | none => simp [handleMessage, hd]
    | some samples2 => simpa [handleMessage, hd] using queueAudio_mono now samples2 s

theorem concatAll_append {α : Type} (a b : List (List α)) :
    concatAll (a ++ b) = concatAll a ++ concatAll b := by
  induction a with
  | nil => simp [concatAll]
  | cons l ls ih => simp [concatAll, ih]

theorem take_set_succ {α : Type} :
    ∀ (l : List α) (i : ℕ) (x : α), i < l.length →
      (l.set i x).take (i + 1) = l.take i ++ [x]
  | [], i, x, h => by simp at h
  | a :: t, 0, x, _ => by simp
  | a :: t, i + 1, x, h => by
      simp only [List.set, List.take, List.length_cons] at h ⊢
      rw [take_set_succ t i x (by omega)]
      simp

theorem processSample_inv {s : RecorderState} (h : RecInv s) (x : ℚ) :
    RecInv (processSample s x) := by
  obtain ⟨hl, hi, he⟩ := h
  unfold RecInv
  by_cases hge : frameSize ≤ s.index + 1
  · simp only [processSample, if_pos hge]
    refine ⟨by simpa using hl, by norm_num [frameSize], ?_⟩
    intro f hf
    rcases List.mem_append.mp hf with hf | hf
    · exact he f hf
    · rw [List.mem_singleton.mp hf]
      simpa using hl
  · simp only [processSample, if_neg hge]
    exact ⟨by simpa using hl, by omega, he⟩

theorem processSample_consumed {s : RecorderState} (h : RecInv s) (x : ℚ) :
    consumed (processSample s x) = consumed s ++ [x] := by
  obtain ⟨hl, hi, he⟩ := h
  have hset : (s.buffer.set s.index x).take (s.index + 1)
      = s.buffer.take s.index ++ [x] :=
    take_set_succ s.buffer s.index x (by omega)
  unfold consumed
  by_cases hge : frameSize ≤ s.index + 1
  · have hidx : s.index + 1 = frameSize := by omega
    have hfull : s.buffer.set s.index x = (s.buffer.set s.index x).take (s.index + 1) := by
      rw [hidx]
      rw [(by simpa using hl : (s.buffer.set s.index x).length = frameSize).symm]
      rw [List.take_length]
    simp only [processSample, if_pos hge, List.take_zero, List.append_nil,
      concatAll_append, concatAll]
    rw [hfull, hset, List.append_assoc]
  · simp only [processSample, if_neg hge, hset]
    rw [List.append_assoc]

theorem processBatch_inv_consumed (batch : List ℚ) :
    ∀ s : RecorderState, RecInv s →
      RecInv (processBatch s batch) ∧
      consumed (processBatch s batch) = consumed s ++ batch := by
  induction batch with
  | nil => intro s h; exact ⟨h, by simp [processBatch]⟩
  | cons x rest ih =>
      intro s h
      have hstep := processSample_inv h x
      have hc := processSample_consumed h x
      have hrec := ih (processSample s x) hstep
      refine ⟨by simpa [processBatch] using hrec.1, ?_⟩
      show consumed (processBatch (processSample s x) rest) = _
      rw [hrec.2, hc, List.append_assoc]
      rfl

theorem processStream_inv_consumed (batches : List (List ℚ)) :
    ∀ s : RecorderState, RecInv s →
      RecInv (processStream s batches) ∧
      consumed (processStream s batches) = consumed s ++ concatAll batches := by
  induction batches with
  | nil => intro s h; exact ⟨h, by simp [processStream, concatAll]⟩
  | cons batch rest ih =>
      intro s h
      have hstep := processBatch_inv_consumed batch s h
      have hrec := ih (processBatch s batch) hstep.1
      refine ⟨by simpa [processStream] using hrec.1, ?_⟩
      show consumed (processStream (processBatch s batch) rest) = _
      rw [hrec.2, hstep.2, List.append_assoc]
      rfl

theorem initRecorder_inv : RecInv initRecorder := by
  refine ⟨by simp [initRecorder], by norm_num [initRecorder, frameSize], ?_⟩
  intro f hf
  simp [initRecorder] at hf

/-- C8: feeding the recorder worklet (lines 12-37 and 406-431) any stream of
batches of arbitrary sizes, every posted frame has exactly frameSize = 2048
samples; the posted frames followed by the partial accumulator content
reproduce the whole input stream in order (no loss, no duplication); the
accumulator keeps its fixed 2048-slot allocation (samples are written in
place, the buffer never grows or shrinks) with the write index inside it; and
stopping emits nothing further, dropping the partial frame rather than
padding it. -/
theorem c8_chunker (batches : List (List ℚ)) :
    (∀ f ∈ (processStream initRecorder batches).emitted, f.length = frameSize) ∧
    concatAll (processStream initRecorder batches).emitted
        ++ (processStream initRecorder batches).buffer.take
             (processStream initRecorder batches).index
      = concatAll batches ∧
    (processStream initRecorder batches).buffer.length = frameSize ∧
    (processStream initRecorder batches).index < frameSize ∧
    flushOnStop (processStream initRecorder batches)
      = (processStream initRecorder batches).emitted := by
  obtain ⟨⟨hl, hi, he⟩, hc⟩ :=
    processStream_inv_consumed batches initRecorder initRecorder_inv
  refine ⟨he, ?_, hl, hi, rfl⟩
  have : consumed initRecorder = [] := by simp [consumed, initRecorder, concatAll]
  rw [this] at hc
  simpa [consumed] using hc

theorem c8_chunker_witness :
    (∀ f ∈ (processStream initRecorder ([] : List (List ℚ))).emitted,
        f.length = frameSize) ∧
    concatAll (processStream initRecorder ([] : List (List ℚ))).emitted
        ++ (processStream initRecorder ([] : List (List ℚ))).buffer.take
             (processStream initRecorder ([] : List (List ℚ))).index
      = concatAll ([] : List (List ℚ)) ∧
    (processStream initRecorder ([] : List (List ℚ))).buffer.length = frameSize ∧
    (processStream initRecorder ([] : List (List ℚ))).index < frameSize ∧
    flushOnStop (processStream initRecorder ([] : List (List ℚ)))
      = (processStream initRecorder ([] : List (List ℚ))).emitted :=
  c8_chunker ([] : List (List ℚ))

theorem clampSample_bounds (x : ℚ) : -1 ≤ clampSample x ∧ clampSample x ≤ 1 :=
  ⟨le_max_left _ _, max_le (by norm_num) (min_le_left _ _)⟩

theorem encodeSample_bounds (x : ℚ) :
    -32767 ≤ encodeSample x ∧ encodeSample x ≤ 32767 := by
  obtain ⟨h1, h2⟩ := clampSample_bounds x
  unfold encodeSample
  rw [round_eq]
  constructor
  · rw [Int.le_floor]
    push_cast
    linarith
  · have hlt : ⌊clampSample x * 32767 + 1 / 2⌋ < 32768 := by
      rw [Int.floor_lt]
      push_cast
      linarith
    omega

theorem encodeSample_zero : encodeSample 0 = 0 := by
  have hc : clampSample (0 : ℚ) = 0 := by
    unfold clampSample
    rw [min_eq_right (by norm_num), max_eq_right (by norm_num)]
  simp [encodeSample, hc]

theorem encodeSample_one : encodeSample 1 = 32767 := by
  have hc : clampSample (1 : ℚ) = 1 := by
    unfold clampSample
    rw [min_self, max_eq_right (by norm_num)]
  rw [encodeSample, hc, one_mul]
  rw [show ((32767 : ℚ)) = ((32767 : ℤ) : ℚ) by norm_num, round_intCast]

theorem encodeSample_negOne : encodeSample (-1) = -32767 := by
  have hc : clampSample (-1 : ℚ) = -1 := by
    unfold clampSample
    rw [min_eq_right (by norm_num), max_self]
  rw [encodeSample, hc]
  rw [show ((-1 : ℚ) * 32767) = ((-32767 : ℤ) : ℚ) by norm_num, round_intCast]

/-- C6: the Wire Encoder quantizes by sample16 = round(clamp(sample, -1, 1) *
32767); it is total and clamps out-of-range input into the signed 16-bit
range rather than throwing; composed with the per-word decode map of the
decoder worker, an all-zero frame round-trips exactly, and 1.0 and -1.0
round-trip to within one quantization step 1/32768. -/
theorem c6_encoder (x : ℚ) (frame : List ℚ) :
    encodeSample x = round (clampSample x * 32767) ∧
    (-32767 ≤ encodeSample x ∧ encodeSample x ≤ 32767) ∧
    ((∀ y ∈ frame, y = 0) → roundTripFrame frame = frame) ∧
    |decodeSample (encodeSample 1) - 1| ≤ 1 / 32768 ∧
    |decodeSample (encodeSample (-1)) - (-1)| ≤ 1 / 32768 := by
  refine ⟨rfl, encodeSample_bounds x, ?_, ?_, ?_⟩
  · intro hz
    unfold roundTripFrame
    induction frame with
    | nil => rfl
    | cons a t ih =>
        have ha : a = 0 := hz a (List.mem_cons_self a t)
        have hz0 : decodeSample (encodeSample a) = a := by
          rw [ha, encodeSample_zero]
          simp [decodeSample]
        simp only [List.map_cons, hz0]
        rw [ih fun y hy => hz y (List.mem_cons_of_mem a hy)]
  · rw [encodeSample_one]
    rw [show decodeSample 32767 = 32767 / 32768 by norm_num [decodeSample]]
    rw [abs_le]
    constructor <;> norm_num
  · rw [encodeSample_negOne]
    rw [show decodeSample (-32767) = -(32767 / 32768) by norm_num [decodeSample]]
    rw [abs_le]
    constructor <;> norm_num

theorem c6_encoder_witness :
    roundTripFrame [0, 0, 0] = [0, 0, 0] :=
  (c6_encoder 0 [0, 0, 0]).2.2.1 (by intro y hy; simpa using hy)

/-- C3: two stop calls in the same tick, replayed on the synchronous prefix
of stop (lines 353-394 / 673-715).  The first call nulls the nodes and the
stream and calls close() on the input audio context, then suspends at the
await; this.inputContext is still non-null at that point.  The second call
therefore passes the null check again and calls close() a second time, which
the Web Audio specification answers with a rejected InvalidStateError
promise: the input context close is attempted twice and the second stop call
throws, contradicting the claim that every stop is a non-throwing exactly-
once teardown.  (The capture stream tracks themselves are stopped only once,
because this.stream is nulled synchronously before the first await.) -/
theorem c3_double_close :
    (doubleStop connectedClientR).inputCloseCalls = 2 ∧
    (doubleStop connectedClientR).closeErrors = 1 ∧
    (doubleStop connectedClientR).trackStops = 1 := by
  decide

/-- C9 as stated is refuted here: a stop request arriving during the
setSinkId await (stopB) is not followed by an active-flag check before the
next resource acquisition — connect (first revision, lines 159-250) proceeds
straight to getUserMedia and acquires the capture stream once AFTER the stop
already ran (the stream is then torn down again by the check that follows
getUserMedia). -/
theorem c9_counterexample :
    (connect false true false false initClient).acqAfterStop = 1 ∧
    (connect false true false false initClient).acqStream = 1 ∧
    (connect false true false false initClient).stream = false := by
  decide

/-- C9 (amended): the shared active flag is checked after the worklet-load
await and after the device-acquisition await, but not after the setSinkId
await.  Consequently, if a stop arrives during any of the three awaits of
connect, the remote session is never opened, connect ends inactive with no
resource still held and every acquisition matched by a release; at most one
acquisition (the capture stream, in the setSinkId window) can happen after
the stop, and a stop during the worklet-load await prevents any further
acquisition at all. -/
theorem c9_cancellation (stopA stopB stopC gumFail : Bool) :
    ((stopA || stopB || stopC) = true →
      (let c := connect stopA stopB stopC gumFail initClient
       c.session = false ∧ c.acqSession = 0 ∧ c.active = false ∧
       c.inputCtx = false ∧ c.outputCtx = false ∧ c.stream = false ∧
       c.relInputCtx = c.acqInputCtx ∧ c.relOutputCtx = c.acqOutputCtx ∧
       c.relStream = c.acqStream ∧ c.acqAfterStop ≤ 1)) ∧
    (stopA = true →
      (connect stopA stopB stopC gumFail initClient).acqStream = 0 ∧
      (connect stopA stopB stopC gumFail initClient).acqAfterStop = 0) := by
  cases stopA <;> cases stopB <;> cases stopC <;> cases gumFail <;>
    exact ⟨fun h => by revert h; decide, fun h => by revert h; decide⟩

theorem c9_cancellation_witness :
    (let c := connect false true false false initClient
     c.session = false ∧ c.acqSession = 0 ∧ c.active = false ∧
     c.inputCtx = false ∧ c.outputCtx = false ∧ c.stream = false ∧
     c.relInputCtx = c.acqInputCtx ∧ c.relOutputCtx = c.acqOutputCtx ∧
     c.relStream = c.acqStream ∧ c.acqAfterStop ≤ 1) ∧
    ((connect true false false false initClient).acqStream = 0 ∧
     (connect true false false false initClient).acqAfterStop = 0) :=
  ⟨(c9_cancellation false true false false).1 rfl,
   (c9_cancellation true false false false).2 rfl⟩

end LiveClient
